import Mathlib

/-!
# Verification of `vite-plugin-aws-lambda`

Shallow embedding of the plugin's three units, translated from
`src/packages/plugin/src/index.ts`:

* `zipDir` — the archiver loop (lines 111–161): a recursive directory
  traversal is consumed entry by entry; each entry's absolute path is
  resolved (`path.resolve(parentPath, entry.name)`) and compared with the
  destination path (skip on equality); directory entries become
  null-content archive members, file entries become content members and
  fire the progress callback; all other entry kinds are ignored.
* `getConfigDefaults` (lines 89–109): fills in unset library-build fields.
* `onLog` (lines 44–47): the quiet-mode log filter.

Absolute paths are modelled as lists of path components (the string form a
Node `path` value takes once the platform separator is fixed); `joinPath`
renders a component list back to the string that is actually handed to the
zip library, with the host separator as a parameter, so that claims that
quantify over host path conventions are statable.  Machinery that the code
only calls (JSZip, the filesystem) is represented by the data it exchanges
with the code: an entry carries the kind, mtime and bytes that `fs` would
report for it, and the archive is the list of `(name, dir?, content, date)`
tuples passed to `zip.file`.
-/

namespace AwsLambdaPlugin

/-- Node `path.relative(from, to)` on normalized absolute paths, at the
component level: strip the common prefix, then one `".."` per remaining
`from` component followed by the remaining `to` components. -/
def relComponents : List String → List String → List String
  | [], ts => ts
  | f :: fs, [] => (f :: fs).map fun _ => ".."
  | f :: fs, t :: ts =>
    if f = t then relComponents fs ts
    else ((f :: fs).map fun _ => "..") ++ t :: ts

/-- Render a component list with the host separator: the exact string a
Node `path` function returns for that path on that host. -/
def joinPath (sep : String) : List String → String
  | [] => ""
  | [c] => c
  | c :: c2 :: cs => c ++ sep ++ joinPath sep (c2 :: cs)

/-- `isUnder base p` holds when `base` is a leading sequence of the
components of `p`, i.e. `p` is `base` or lies below it. -/
def isUnder : List String → List String → Bool
  | [], _ => true
  | _ :: _, [] => false
  | b :: bs, p :: ps => b = p && isUnder bs ps

/-- A path component as a real filesystem produces it: nonempty and free
of both separator characters. -/
def goodComp (c : String) : Bool :=
  decide (c.data ≠ [] ∧ '/' ∉ c.data ∧ '\\' ∉ c.data)

/-- The kind a traversal `Dirent` reports: `isDirectory()`, `isFile()`, or
anything else (symlink, socket, FIFO, ...). -/
inductive EntryKind where
  | file
  | directory
  | other
  deriving DecidableEq, Repr

/-- One entry yielded by `fs.opendir(inDir, { recursive: true })`,
together with the metadata and bytes `fs.stat` / `fs.readFile` would
report for it (`mtime` in milliseconds, `content` meaningful only for
files). -/
structure DirEntry where
  parentPath : List String
  name : String
  kind : EntryKind
  mtime : Nat
  content : List Nat
  deriving DecidableEq, Repr

/-- The absolute path `path.resolve(parentPath, entry.name)` of an entry. -/
def DirEntry.resolved (e : DirEntry) : List String :=
  e.parentPath ++ [e.name]

/-- One archive member as handed to `zip.file(relativeFilename, content,
options)`: directories get `null` content and `dir: true`, files get their
bytes; `date` is the stat mtime. -/
structure Member where
  relPath : List String
  isDir : Bool
  content : Option (List Nat)
  date : Nat
  deriving DecidableEq, Repr

/-- A filesystem read performed by the loop body. -/
inductive FsOp where
  | stat (p : List String)
  | readFile (p : List String)
  deriving DecidableEq, Repr

/-- Everything observable about one run of the `zipDir` loop: the members
added to the archive (in order), the progress-callback invocations (in
order, each carrying the relative path passed to `onFile`), and the
filesystem reads issued. -/
structure ZipResult where
  members : List Member
  calls : List (List String)
  reads : List FsOp
  deriving DecidableEq, Repr

/-- The `for await` loop of `zipDir` (index.ts lines 116–140), one entry
at a time: resolve the entry's absolute path, skip it when it equals the
destination, otherwise add a directory member (after a stat) or a file
member (after a stat and a read, with one `onFile` call), and ignore every
other entry kind. -/
def zipDir (inDir outFilename : List String) : List DirEntry → ZipResult
  | [] => ⟨[], [], []⟩
  | e :: rest =>
    let filename := e.resolved
    let relativeFilename := relComponents inDir filename
    if filename = outFilename then
      zipDir inDir outFilename rest
    else
      match e.kind with
      | .directory =>
        let r := zipDir inDir outFilename rest
        ⟨⟨relativeFilename, true, none, e.mtime⟩ :: r.members, r.calls,
          FsOp.stat filename :: r.reads⟩
      | .file =>
        let r := zipDir inDir outFilename rest
        ⟨⟨relativeFilename, false, some e.content, e.mtime⟩ :: r.members,
          relativeFilename :: r.calls,
          FsOp.stat filename :: FsOp.readFile filename :: r.reads⟩
      | .other => zipDir inDir outFilename rest

/-- The member (if any) that a single entry contributes; `zipDir`'s member
list is the `filterMap` of this over the entries. -/
def memberOf (inDir outFilename : List String) (e : DirEntry) : Option Member :=
  if e.resolved = outFilename then none
  else
    match e.kind with
    | .directory => some ⟨relComponents inDir e.resolved, true, none, e.mtime⟩
    | .file => some ⟨relComponents inDir e.resolved, false, some e.content, e.mtime⟩
    | .other => none

/-- The callback invocation (if any) that a single entry contributes. -/
def callOf (inDir outFilename : List String) (e : DirEntry) : Option (List String) :=
  if e.resolved = outFilename then none
  else
    match e.kind with
    | .file => some (relComponents inDir e.resolved)
    | _ => none

/-- The filesystem reads that a single entry triggers. -/
def readsOf (outFilename : List String) (e : DirEntry) : List FsOp :=
  if e.resolved = outFilename then []
  else
    match e.kind with
    | .directory => [FsOp.stat e.resolved]
    | .file => [FsOp.stat e.resolved, FsOp.readFile e.resolved]
    | .other => []

mutual

/-- A node of a directory tree on disk: a file with mtime and bytes, or a
directory with mtime and named children. -/
inductive FsNode where
  | file (mtime : Nat) (content : List Nat)
  | dir (mtime : Nat) (children : FsChildren)

/-- The named children of a directory. -/
inductive FsChildren where
  | nil
  | cons (name : String) (node : FsNode) (rest : FsChildren)

end

/-- The traversal `Dirent` for a node found under directory `abs`. -/
def entryFor (abs : List String) (name : String) : FsNode → DirEntry
  | .file m c => ⟨abs, name, .file, m, c⟩
  | .dir m _ => ⟨abs, name, .directory, m, []⟩

mutual

/-- Entries `fs.opendir(abs, { recursive: true })` yields below a node at
absolute path `abs` (the node itself is not yielded). -/
def FsNode.entriesAt (abs : List String) : FsNode → List DirEntry
  | .file _ _ => []
  | .dir _ cs => FsChildren.entriesAt abs cs

/-- Entries yielded for a child list of the directory at `abs`: each child
as a `Dirent` with `parentPath = abs`, followed by its own descendants. -/
def FsChildren.entriesAt (abs : List String) : FsChildren → List DirEntry
  | .nil => []
  | .cons name node rest =>
    entryFor abs name node :: (FsNode.entriesAt (abs ++ [name]) node
      ++ FsChildren.entriesAt abs rest)

end

/-- Modelled from the spec: the archive member the full recursive listing
of a tree expects for a node at relative path `rel` — directories as
zero-content (null-content) members, files with their exact bytes. -/
def listedMember (rel : List String) : FsNode → Member
  | .file m c => ⟨rel, false, some c, m⟩
  | .dir m _ => ⟨rel, true, none, m⟩

mutual

/-- Modelled from the spec: the part of the full recursive listing
contributed by the descendants of a node at relative path `rel`. -/
def FsNode.listingBelow (rel : List String) : FsNode → List Member
  | .file _ _ => []
  | .dir _ cs => FsChildren.listing rel cs

/-- Modelled from the spec: the full recursive listing of a child list
whose parent directory sits at relative path `rel` — one member per node,
keyed by its relative path. -/
def FsChildren.listing (rel : List String) : FsChildren → List Member
  | .nil => []
  | .cons name node rest =>
    listedMember (rel ++ [name]) node :: (FsNode.listingBelow (rel ++ [name]) node
      ++ FsChildren.listing rel rest)

end

/-! ## Configuration defaults (`getConfigDefaults`, index.ts lines 89–109) -/

/-- The caller-supplied `build.lib` options: `entry` is always present
(the plugin disables itself otherwise), `formats` and `fileName` may be
unset. -/
structure LibraryOptions where
  entry : String
  formats : Option (List String)
  fileName : Option (String → String → String)

/-- The caller-supplied `build.rollupOptions`, of which only `external`
matters here; modelled as the external-module predicate when set. -/
structure RollupOptionsIn where
  external : Option (String → Bool)

/-- The `build.lib` part of the returned defaults. -/
structure LibOut where
  entry : String
  formats : List String
  fileName : String → String → String

/-- The merged configuration `getConfigDefaults` returns. -/
structure BuildOut where
  lib : LibOut
  external : String → Bool

/-- `getConfigDefaults(lib, rollupOptions)`.  The host runtime's built-in
module registry (`module.isBuiltin`, exact-match membership) is passed in
as `isBuiltin`; `a ?? b` becomes `Option.getD`, and `rollupOptions?.external`
becomes a `bind` through the optional `rollupOptions`. -/
def getConfigDefaults (isBuiltin : String → Bool) (lib : LibraryOptions)
    (rollupOptions : Option RollupOptionsIn) : BuildOut :=
  { lib :=
      { entry := lib.entry
        formats := lib.formats.getD ["es"]
        fileName := lib.fileName.getD fun format name =>
          if format = "es" ∨ format = "esm" ∨ format = "module" then
            name ++ ".mjs"
          else
            name ++ ".js" }
    external := (rollupOptions.bind RollupOptionsIn.external).getD isBuiltin }

/-! ## Log filtering (`onLog`, index.ts lines 44–47) -/

/-- The plugin's name constant. -/
def PLUGIN_NAME : String := "vite-plugin-aws-lambda"

/-- `onLog(level, log)` returns `log.plugin !== PLUGIN_NAME || !quiet`;
`logPlugin` is `log.plugin`, which may be absent. -/
def onLog (quiet : Bool) (logPlugin : Option String) : Bool :=
  decide (logPlugin ≠ some PLUGIN_NAME) || !quiet

/-! ## Traversal cleanup (`finally` block, index.ts lines 142–149) -/

/-- How the `for await` body of `zipDir` ended: normally, or by throwing. -/
inductive BodyOutcome where
  | ok
  | error (code : String)
  deriving DecidableEq, Repr

/-- The result a `BodyOutcome` would propagate on its own. -/
def BodyOutcome.toExcept : BodyOutcome → Except String Unit
  | .ok => .ok ()
  | .error c => .error c

/-- `entries.close().catch(err => { if (err?.code !== 'ERR_DIR_CLOSED')
throw err; })`: a close failure with code `ERR_DIR_CLOSED` is swallowed,
any other close failure is rethrown. -/
def closeWithCatch (closeErr : Option String) : Except String Unit :=
  match closeErr with
  | none => .ok ()
  | some code => if code = "ERR_DIR_CLOSED" then .ok () else .error code

/-- The overall outcome of one `zipDir` run together with whether
`entries.close()` was invoked.  `try { body } finally { cleanup }`
semantics: the cleanup always runs; an error escaping the cleanup
supersedes the body's outcome, otherwise the body's outcome stands. -/
def zipDirFinally (body : BodyOutcome) (closeErr : Option String) :
    Except String Unit × Bool :=
  match closeWithCatch closeErr with
  | .error e => (.error e, true)
  | .ok _ => (body.toExcept, true)

/-! ## Concrete data used by witnesses -/

/-- A demo output directory path, `/root/dist`. -/
def demoInDir : List String := ["root", "dist"]

/-- A demo destination path outside the source tree, `/root/dist.zip`. -/
def demoOut : List String := ["root", "dist.zip"]

/-- The spec's end-to-end demo tree: `a.txt` (mtime 1), `b/` (mtime 2)
containing `b/c.txt` (mtime 3). -/
def demoTree : FsChildren :=
  .cons "a.txt" (.file 1 [104, 105])
    (.cons "b" (.dir 2 (.cons "c.txt" (.file 3 [119, 111]) .nil)) .nil)

/-- A demo traversal entry list containing the destination itself, as left
behind by a previous run archiving into the source directory. -/
def demoEntriesWithSelf : List DirEntry :=
  [⟨["root", "dist"], "a.txt", .file, 1, [104, 105]⟩,
   ⟨["root", "dist"], "out.zip", .file, 9, [80, 75]⟩,
   ⟨["root", "dist"], "b", .directory, 2, []⟩,
   ⟨["root", "dist", "b"], "c.txt", .file, 3, [119, 111]⟩]

/-! ## Characterizations of the loop -/

theorem zipDir_members_eq_filterMap (inDir out : List String) (entries : List DirEntry) :
    (zipDir inDir out entries).members = entries.filterMap (memberOf inDir out) := by
  induction entries with
  | nil => rfl
  | cons e rest ih =>
    simp only [zipDir, memberOf, List.filterMap_cons]
    split
    · simpa using ih
    · cases e.kind <;> simp [ih]

theorem zipDir_calls_eq_filterMap (inDir out : List String) (entries : List DirEntry) :
    (zipDir inDir out entries).calls = entries.filterMap (callOf inDir out) := by
  induction entries with
  | nil => rfl
  | cons e rest ih =>
    simp only [zipDir, callOf, List.filterMap_cons]
    split
    · simpa using ih
    · cases e.kind <;> simp [ih]

theorem zipDir_reads_eq_flatMap (inDir out : List String) (entries : List DirEntry) :
    (zipDir inDir out entries).reads = entries.flatMap (readsOf out) := by
  induction entries with
  | nil => rfl
  | cons e rest ih =>
    simp only [zipDir, readsOf, List.flatMap_cons]
    split
    · simpa using ih
    · cases e.kind <;> simp [ih]

theorem zipResult_eq {r s : ZipResult} (h1 : r.members = s.members)
    (h2 : r.calls = s.calls) (h3 : r.reads = s.reads) : r = s := by
  cases r
  cases s
  simp_all

theorem filterMap_filter_of_none {α β : Type} (f : α → Option β) (g : α → Bool)
    (hfg : ∀ a, g a = false → f a = none) (l : List α) :
    (l.filter g).filterMap f = l.filterMap f := by
  induction l with
  | nil => rfl
  | cons a l ih =>
    rw [List.filter_cons]
    by_cases hg : g a = true
    · rw [if_pos hg, List.filterMap_cons, List.filterMap_cons, ih]
    · rw [if_neg hg, List.filterMap_cons,
        hfg a (Bool.eq_false_iff.mpr hg), ih]

theorem flatMap_filter_of_nil {α β : Type} (f : α → List β) (g : α → Bool)
    (hfg : ∀ a, g a = false → f a = []) (l : List α) :
    (l.filter g).flatMap f = l.flatMap f := by
  induction l with
  | nil => rfl
  | cons a l ih =>
    rw [List.filter_cons]
    by_cases hg : g a = true
    · rw [if_pos hg, List.flatMap_cons, List.flatMap_cons, ih]
    · rw [if_neg hg, List.flatMap_cons, hfg a (Bool.eq_false_iff.mpr hg), ih,
        List.nil_append]

theorem relComponents_append (base rest : List String) :
    relComponents base (base ++ rest) = rest := by
  induction base with
  | nil => cases rest <;> rfl
  | cons b bs ih => simpa [relComponents] using ih

theorem isUnder_exists {base p : List String} (h : isUnder base p = true) :
    ∃ mid, p = base ++ mid := by
  induction base generalizing p with
  | nil => exact ⟨p, rfl⟩
  | cons b bs ih =>
    cases p with
    | nil => simp [isUnder] at h
    | cons q qs =>
      simp only [isUnder, Bool.and_eq_true, decide_eq_true_eq] at h
      obtain ⟨rfl, h2⟩ := h
      obtain ⟨mid, rfl⟩ := ih h2
      exact ⟨mid, rfl⟩

theorem memberOf_eq_some {inDir out : List String} {e : DirEntry} {m : Member}
    (h : memberOf inDir out e = some m) :
    e.resolved ≠ out ∧ m.relPath = relComponents inDir e.resolved ∧
      m.date = e.mtime ∧ (m.isDir = true ↔ e.kind = EntryKind.directory) ∧
      (m.isDir = true → m.content = none) := by
  by_cases hout : e.resolved = out
  · simp [memberOf, hout] at h
  · cases hk : e.kind <;> simp [memberOf, hout, hk] at h <;>
      simp [hout, ← h, hk]

theorem entryFor_resolved (abs : List String) (name : String) (n : FsNode) :
    (entryFor abs name n).resolved = abs ++ [name] := by
  cases n <;> simp [entryFor, DirEntry.resolved]

mutual

theorem filterMap_entriesAt_node (inDir out rel : List String) (n : FsNode)
    (h : ∀ e ∈ FsNode.entriesAt (inDir ++ rel) n, e.resolved ≠ out) :
    (FsNode.entriesAt (inDir ++ rel) n).filterMap (memberOf inDir out) =
      FsNode.listingBelow rel n := by
  cases n with
  | file m c => rfl
  | dir m cs =>
    simp only [FsNode.entriesAt, FsNode.listingBelow]
    exact filterMap_entriesAt_children inDir out rel cs
      (fun e he => h e (by simpa [FsNode.entriesAt] using he))

theorem filterMap_entriesAt_children (inDir out rel : List String) (cs : FsChildren)
    (h : ∀ e ∈ FsChildren.entriesAt (inDir ++ rel) cs, e.resolved ≠ out) :
    (FsChildren.entriesAt (inDir ++ rel) cs).filterMap (memberOf inDir out) =
      FsChildren.listing rel cs := by
  cases cs with
  | nil => rfl
  | cons name node rest =>
    have hname : (entryFor (inDir ++ rel) name node).resolved ≠ out :=
      h _ (by simp [FsChildren.entriesAt])
    rw [entryFor_resolved, List.append_assoc] at hname
    have hm : memberOf inDir out (entryFor (inDir ++ rel) name node) =
        some (listedMember (rel ++ [name]) node) := by
      cases node <;>
        simp [memberOf, entryFor, DirEntry.resolved, listedMember,
          List.append_assoc, hname, relComponents_append]
    have h1 : ∀ e ∈ FsNode.entriesAt (inDir ++ (rel ++ [name])) node, e.resolved ≠ out := by
      intro e he
      refine h e ?_
      simp only [FsChildren.entriesAt, List.mem_cons, List.mem_append]
      exact Or.inr (Or.inl (by rwa [List.append_assoc]))
    have h2 : ∀ e ∈ FsChildren.entriesAt (inDir ++ rel) rest, e.resolved ≠ out := by
      intro e he
      exact h e (by simp [FsChildren.entriesAt, he])
    have hnode := filterMap_entriesAt_node inDir out (rel ++ [name]) node h1
    have hrest := filterMap_entriesAt_children inDir out rel rest h2
    simp only [FsChildren.entriesAt, FsChildren.listing, List.filterMap_cons, hm,
      List.filterMap_append, hrest, List.append_assoc]
    rw [hnode]

end

theorem zipDir_skip_dest (inDir out : List String) (entries : List DirEntry) :
    zipDir inDir out entries =
      zipDir inDir out (entries.filter fun e => decide (e.resolved ≠ out)) := by
  have hg : ∀ e : DirEntry, decide (e.resolved ≠ out) = false → e.resolved = out := by
    intro e he
    simpa using he
  refine zipResult_eq ?_ ?_ ?_
  · rw [zipDir_members_eq_filterMap, zipDir_members_eq_filterMap,
      filterMap_filter_of_none]
    intro e he
    simp [memberOf, hg e he]
  · rw [zipDir_calls_eq_filterMap, zipDir_calls_eq_filterMap,
      filterMap_filter_of_none]
    intro e he
    simp [callOf, hg e he]
  · rw [zipDir_reads_eq_flatMap, zipDir_reads_eq_flatMap, flatMap_filter_of_nil]
    intro e he
    simp [readsOf, hg e he]

/-! ## The claims -/

/-- C1: when the destination path lies inside the source directory, no
member of the resulting archive resolves to the destination path, and an
entry resolving to the destination contributes nothing to the run — no
member, no callback, no filesystem read — even though it was yielded by
the traversal. -/
theorem c1_self_guard (inDir out : List String) (entries : List DirEntry)
    (_hin : isUnder inDir out = true ∧ out ≠ inDir)
    (hent : ∀ e ∈ entries, isUnder inDir e.parentPath = true) :
    (∀ m ∈ (zipDir inDir out entries).members, inDir ++ m.relPath ≠ out) ∧
      zipDir inDir out entries =
        zipDir inDir out (entries.filter fun e => decide (e.resolved ≠ out)) := by
  refine ⟨?_, zipDir_skip_dest inDir out entries⟩
  intro m hm
  rw [zipDir_members_eq_filterMap] at hm
  obtain ⟨e, he, hme⟩ := List.mem_filterMap.mp hm
  obtain ⟨hne, hrel, -⟩ := memberOf_eq_some hme
  obtain ⟨mid, hmid⟩ := isUnder_exists (hent e he)
  have hres : e.resolved = inDir ++ (mid ++ [e.name]) := by
    simp [DirEntry.resolved, hmid]
  rw [hrel, hres, relComponents_append, ← hres]
  exact hne

/-- C1 witness: a concrete run over a source directory that still holds
the previous archive `root/dist/out.zip`, archiving into that same path. -/
theorem c1_self_guard_witness :
    zipDir demoInDir ["root", "dist", "out.zip"] demoEntriesWithSelf =
      zipDir demoInDir ["root", "dist", "out.zip"]
        (demoEntriesWithSelf.filter fun e =>
          decide (e.resolved ≠ ["root", "dist", "out.zip"])) :=
  (c1_self_guard demoInDir ["root", "dist", "out.zip"] demoEntriesWithSelf
    (by decide) (by decide)).2

/-- C2: archiving a directory tree that does not contain the destination
path yields exactly the tree's full recursive listing as members —
directories as null-content members, files with their exact bytes, keyed
by relative path. -/
theorem c2_members_eq_listing (inDir out : List String) (cs : FsChildren)
    (h : ∀ e ∈ FsChildren.entriesAt inDir cs, e.resolved ≠ out) :
    (zipDir inDir out (FsChildren.entriesAt inDir cs)).members =
      FsChildren.listing [] cs := by
  rw [zipDir_members_eq_filterMap]
  have h2 : ∀ e ∈ FsChildren.entriesAt (inDir ++ []) cs, e.resolved ≠ out := by
    simpa using h
  simpa using filterMap_entriesAt_children inDir out [] cs h2

/-- C2 witness: the spec's end-to-end demo tree (`a.txt`, `b/`, `b/c.txt`)
archived to a destination outside the tree. -/
theorem c2_members_eq_listing_witness :
    (zipDir demoInDir demoOut (FsChildren.entriesAt demoInDir demoTree)).members =
      FsChildren.listing [] demoTree :=
  c2_members_eq_listing demoInDir demoOut demoTree (by decide)

/-- C3: the progress-callback invocations of a run are exactly the
relative paths of the file members of the resulting archive, in order —
once per archived file, never for directories or skipped entries — so the
invocation count equals the number of file members. -/
theorem c3_calls_match_file_members (inDir out : List String) (entries : List DirEntry) :
    (zipDir inDir out entries).calls =
        (((zipDir inDir out entries).members.filter fun m => !m.isDir).map Member.relPath) ∧
      (zipDir inDir out entries).calls.length =
        ((zipDir inDir out entries).members.filter fun m => !m.isDir).length := by
  have key : (zipDir inDir out entries).calls =
      (((zipDir inDir out entries).members.filter fun m => !m.isDir).map Member.relPath) := by
    induction entries with
    | nil => rfl
    | cons e rest ih =>
      simp only [zipDir]
      split
      · exact ih
      · cases e.kind <;> simp [List.filter_cons, ih]
  exact ⟨key, by rw [key, List.length_map]⟩

/-- C9: entries that are neither regular files nor directories (symlinks,
sockets, FIFOs, ...) contribute nothing to a run: removing them changes
neither the members, nor the callback invocations, nor the filesystem
reads. -/
theorem c9_other_entries_ignored (inDir out : List String) (entries : List DirEntry) :
    zipDir inDir out entries =
      zipDir inDir out (entries.filter fun e => decide (e.kind ≠ EntryKind.other)) := by
  have hg : ∀ e : DirEntry, decide (e.kind ≠ EntryKind.other) = false →
      e.kind = EntryKind.other := by
    intro e he
    simpa using he
  refine zipResult_eq ?_ ?_ ?_
  · rw [zipDir_members_eq_filterMap, zipDir_members_eq_filterMap,
      filterMap_filter_of_none]
    intro e he
    simp [memberOf, hg e he]
  · rw [zipDir_calls_eq_filterMap, zipDir_calls_eq_filterMap,
      filterMap_filter_of_none]
    intro e he
    simp [callOf, hg e he]
  · rw [zipDir_reads_eq_flatMap, zipDir_reads_eq_flatMap, flatMap_filter_of_nil]
    intro e he
    simp [readsOf, hg e he]

/-- C4: with only the entry point set (formats, fileName and the external
predicate unset), the defaults are output formats `["es"]`, the filename
rule mapping `es`/`esm`/`module` to `<name>.mjs` and every other format to
`<name>.js`, and exact membership in the host runtime's built-in module
registry as the external predicate. -/
theorem c4_defaults (isBuiltin : String → Bool) (entry : String)
    (ro : Option RollupOptionsIn) (hro : ro.bind RollupOptionsIn.external = none) :
    (getConfigDefaults isBuiltin ⟨entry, none, none⟩ ro).lib.formats = ["es"] ∧
      (∀ name,
        (getConfigDefaults isBuiltin ⟨entry, none, none⟩ ro).lib.fileName "es" name =
            name ++ ".mjs" ∧
          (getConfigDefaults isBuiltin ⟨entry, none, none⟩ ro).lib.fileName "esm" name =
            name ++ ".mjs" ∧
          (getConfigDefaults isBuiltin ⟨entry, none, none⟩ ro).lib.fileName "module" name =
            name ++ ".mjs") ∧
      (∀ format name, format ≠ "es" → format ≠ "esm" → format ≠ "module" →
        (getConfigDefaults isBuiltin ⟨entry, none, none⟩ ro).lib.fileName format name =
          name ++ ".js") ∧
      (∀ s, (getConfigDefaults isBuiltin ⟨entry, none, none⟩ ro).external s = isBuiltin s) := by
  refine ⟨rfl, fun name => ⟨rfl, rfl, rfl⟩, ?_, fun s => by simp [getConfigDefaults, hro]⟩
  intro format name h1 h2 h3
  simp [getConfigDefaults, h1, h2, h3]

/-- C4 witness: a concrete registry and entry point, with the defaults
evaluated at `"index"` for formats `es` and `cjs` and at a registry
member. -/
theorem c4_defaults_witness :
    (getConfigDefaults (fun s => s == "fs") ⟨"src/index.ts", none, none⟩ none).lib.formats =
        ["es"] ∧
      (getConfigDefaults (fun s => s == "fs") ⟨"src/index.ts", none, none⟩
          none).lib.fileName "es" "index" = "index.mjs" ∧
      (getConfigDefaults (fun s => s == "fs") ⟨"src/index.ts", none, none⟩
          none).lib.fileName "cjs" "index" = "index.js" ∧
      (getConfigDefaults (fun s => s == "fs") ⟨"src/index.ts", none, none⟩
          none).external "fs" = true := by
  have h := c4_defaults (fun s => s == "fs") "src/index.ts" none rfl
  exact ⟨h.1, (h.2.1 "index").1,
    h.2.2.1 "cjs" "index" (by decide) (by decide) (by decide),
    (h.2.2.2 "fs").trans (by decide)⟩

/-- C5: every field the caller set — entry, formats array, fileName rule,
external predicate — is returned verbatim by the merge, unmodified. -/
theorem c5_verbatim (isBuiltin : String → Bool) (lib : LibraryOptions)
    (ro : Option RollupOptionsIn) :
    (getConfigDefaults isBuiltin lib ro).lib.entry = lib.entry ∧
      (∀ fs, lib.formats = some fs →
        (getConfigDefaults isBuiltin lib ro).lib.formats = fs) ∧
      (∀ f, lib.fileName = some f →
        (getConfigDefaults isBuiltin lib ro).lib.fileName = f) ∧
      (∀ ext, ro.bind RollupOptionsIn.external = some ext →
        (getConfigDefaults isBuiltin lib ro).external = ext) := by
  refine ⟨rfl, ?_, ?_, ?_⟩ <;> intro x hx <;> simp [getConfigDefaults, hx]

/-- C5 witness: a caller who set the entry and an explicit formats array
gets that exact array back. -/
theorem c5_verbatim_witness :
    (getConfigDefaults (fun _ => false) ⟨"e.ts", some ["cjs", "es"], none⟩
        none).lib.formats = ["cjs", "es"] ∧
      (getConfigDefaults (fun _ => false) ⟨"e.ts", some ["cjs", "es"], none⟩
        none).lib.entry = "e.ts" :=
  ⟨(c5_verbatim (fun _ => false) ⟨"e.ts", some ["cjs", "es"], none⟩ none).2.1
      ["cjs", "es"] rfl,
    (c5_verbatim (fun _ => false) ⟨"e.ts", some ["cjs", "es"], none⟩ none).1⟩

/-- C6: the traversal handle is closed on every exit path; a close failure
with code `ERR_DIR_CLOSED` is swallowed (the body's outcome stands), any
other close failure propagates, and a run only reports success when the
body succeeded and nothing but `ERR_DIR_CLOSED` occurred during cleanup —
so that is the only error ever swallowed. -/
theorem c6_cleanup (body : BodyOutcome) (closeErr : Option String) :
    (zipDirFinally body closeErr).2 = true ∧
      (closeErr = some "ERR_DIR_CLOSED" →
        (zipDirFinally body closeErr).1 = body.toExcept) ∧
      (closeErr = none → (zipDirFinally body closeErr).1 = body.toExcept) ∧
      (∀ c, closeErr = some c → c ≠ "ERR_DIR_CLOSED" →
        (zipDirFinally body closeErr).1 = Except.error c) ∧
      ((zipDirFinally body closeErr).1 = Except.ok () →
        body = BodyOutcome.ok ∧
          (closeErr = none ∨ closeErr = some "ERR_DIR_CLOSED")) := by
  cases closeErr with
  | none =>
    cases body <;>
      simp [zipDirFinally, closeWithCatch, BodyOutcome.toExcept]
  | some c =>
    by_cases hc : c = "ERR_DIR_CLOSED" <;> cases body <;>
      simp [zipDirFinally, closeWithCatch, BodyOutcome.toExcept, hc]

/-- C6 witness: a body failure with `EACCES` followed by a close failure
with `EBADF` — the close was invoked and its error propagates. -/
theorem c6_cleanup_witness :
    (zipDirFinally (BodyOutcome.error "EACCES") (some "EBADF")).2 = true ∧
      (zipDirFinally (BodyOutcome.error "EACCES") (some "EBADF")).1 =
        Except.error "EBADF" :=
  ⟨(c6_cleanup (BodyOutcome.error "EACCES") (some "EBADF")).1,
    (c6_cleanup (BodyOutcome.error "EACCES") (some "EBADF")).2.2.2.1 "EBADF" rfl
      (by decide)⟩

/-- C8: two runs over the same unchanged content — traversals that yield
the same entries, possibly in a different order — produce member-for-member
equivalent archives: the member lists are permutations of each other, and
so are the callback lists. -/
theorem c8_idempotent (inDir out : List String) (e1 e2 : List DirEntry)
    (h : e1.Perm e2) :
    ((zipDir inDir out e1).members).Perm ((zipDir inDir out e2).members) ∧
      ((zipDir inDir out e1).calls).Perm ((zipDir inDir out e2).calls) := by
  constructor
  · rw [zipDir_members_eq_filterMap, zipDir_members_eq_filterMap]
    exact h.filterMap _
  · rw [zipDir_calls_eq_filterMap, zipDir_calls_eq_filterMap]
    exact h.filterMap _

/-- C8 witness: the demo entries traversed in two different orders give
permutation-equivalent member lists. -/
theorem c8_idempotent_witness :
    ((zipDir demoInDir demoOut demoEntriesWithSelf).members).Perm
      ((zipDir demoInDir demoOut demoEntriesWithSelf.reverse).members) :=
  (c8_idempotent demoInDir demoOut demoEntriesWithSelf demoEntriesWithSelf.reverse
    (List.reverse_perm demoEntriesWithSelf).symm).1

/-- C10: the quiet option suppresses only this plugin's own log messages —
`onLog` returns `false` exactly when the log's plugin is
`vite-plugin-aws-lambda` and quiet is on, and returns `true` for every
other originating plugin regardless of quiet. -/
theorem c10_onLog_quiet (quiet : Bool) (logPlugin : Option String) :
    onLog quiet logPlugin = false ↔
      logPlugin = some PLUGIN_NAME ∧ quiet = true := by
  cases quiet <;> cases logPlugin <;> simp [onLog]

theorem mem_of_getLast?_eq {α : Type} {l : List α} {a : α}
    (h : l.getLast? = some a) : a ∈ l := by
  obtain ⟨hne, rfl⟩ := List.mem_getLast?_eq_getLast (Option.mem_def.mpr h)
  exact List.getLast_mem hne

theorem goodComp_spec {c : String} (h : goodComp c = true) :
    c.data ≠ [] ∧ '/' ∉ c.data ∧ '\\' ∉ c.data := by
  simpa [goodComp] using h

theorem joinPath_data_ne_nil {cs : List String} (hne : cs ≠ [])
    (hg : ∀ c ∈ cs, goodComp c = true) : (joinPath "/" cs).data ≠ [] := by
  cases cs with
  | nil => exact absurd rfl hne
  | cons c rest =>
    have hc := goodComp_spec (hg c (by simp))
    cases rest with
    | nil => exact hc.1
    | cons c2 rest2 =>
      simp only [joinPath, String.data_append]
      intro hcontra
      simp only [List.append_eq_nil] at hcontra
      exact hc.1 hcontra.1.1

theorem joinPath_no_backslash {cs : List String}
    (hg : ∀ c ∈ cs, goodComp c = true) : '\\' ∉ (joinPath "/" cs).data := by
  induction cs with
  | nil => simp [joinPath]
  | cons c rest ih =>
    have hc := goodComp_spec (hg c (by simp))
    cases rest with
    | nil => exact hc.2.2
    | cons c2 rest2 =>
      have ihr := ih fun x hx => hg x (by simp [hx])
      simp only [joinPath, String.data_append, List.mem_append]
      push_neg
      refine ⟨⟨hc.2.2, ?_⟩, ihr⟩
      decide

theorem joinPath_count_slash {cs : List String} (hne : cs ≠ [])
    (hg : ∀ c ∈ cs, goodComp c = true) :
    (joinPath "/" cs).data.count '/' = cs.length - 1 := by
  induction cs with
  | nil => exact absurd rfl hne
  | cons c rest ih =>
    have hc := goodComp_spec (hg c (by simp))
    cases rest with
    | nil => simp [joinPath, List.count_eq_zero.mpr hc.2.1]
    | cons c2 rest2 =>
      have ihr := ih (by simp) fun x hx => hg x (by simp [hx])
      simp only [joinPath] at ihr ⊢
      rw [String.data_append, String.data_append, List.count_append,
        List.count_append, List.count_eq_zero.mpr hc.2.1, ihr]
      simp
      omega

theorem joinPath_last_not_slash {cs : List String} (hne : cs ≠ [])
    (hg : ∀ c ∈ cs, goodComp c = true) :
    ∀ ch, (joinPath "/" cs).data.getLast? = some ch → ch ≠ '/' := by
  induction cs with
  | nil => exact absurd rfl hne
  | cons c rest ih =>
    cases rest with
    | nil =>
      intro ch hch
      have hc := goodComp_spec (hg c (by simp))
      intro hcontra
      exact hc.2.1 (hcontra ▸ mem_of_getLast?_eq hch)
    | cons c2 rest2 =>
      have hgr : ∀ x ∈ c2 :: rest2, goodComp x = true := fun x hx => hg x (by simp [hx])
      have ihr := ih (by simp) hgr
      intro ch hch
      refine ihr ch ?_
      rw [joinPath, String.data_append,
        List.getLast?_append_of_ne_nil _ (joinPath_data_ne_nil (by simp) hgr)] at hch
      exact hch

/-- C7 (amended): in any run whose traversal entries lie under the source
directory with realistic path components (nonempty, free of both
separator characters), every member has: null content when it is a
directory member; a nonempty relative path whose rendering on a
forward-slash host contains no backslash, contains exactly one `'/'` per
component boundary, and does not end in `'/'`; and a timestamp equal to
its source entry's last-modified time.  The original platform-independence
part of the claim is dropped: on a backslash-separator host the rendered
name uses backslashes (see the counterexample). -/
theorem c7_member_form (inDir out : List String) (entries : List DirEntry)
    (hent : ∀ e ∈ entries, isUnder inDir e.parentPath = true ∧
      (∀ c ∈ e.parentPath.drop inDir.length, goodComp c = true) ∧
      goodComp e.name = true) :
    ∀ m ∈ (zipDir inDir out entries).members,
      (m.isDir = true → m.content = none) ∧
        m.relPath ≠ [] ∧
        '\\' ∉ (joinPath "/" m.relPath).data ∧
        (joinPath "/" m.relPath).data.count '/' = m.relPath.length - 1 ∧
        (∀ ch, (joinPath "/" m.relPath).data.getLast? = some ch → ch ≠ '/') ∧
        (∃ e ∈ entries, m.date = e.mtime ∧ inDir ++ m.relPath = e.resolved ∧
          (m.isDir = true ↔ e.kind = EntryKind.directory)) := by
  intro m hm
  rw [zipDir_members_eq_filterMap] at hm
  obtain ⟨e, he, hme⟩ := List.mem_filterMap.mp hm
  obtain ⟨hne, hrel, hdate, hkind, hdirnull⟩ := memberOf_eq_some hme
  obtain ⟨hu, hmidg, hnameg⟩ := hent e he
  obtain ⟨mid, hmid⟩ := isUnder_exists hu
  rw [hmid, List.drop_left] at hmidg
  have hres : e.resolved = inDir ++ (mid ++ [e.name]) := by
    simp [DirEntry.resolved, hmid]
  have hrelv : m.relPath = mid ++ [e.name] := by
    rw [hrel, hres, relComponents_append]
  have hgall : ∀ c ∈ m.relPath, goodComp c = true := by
    rw [hrelv]
    intro c hc
    rcases List.mem_append.mp hc with hcm | hcn
    · exact hmidg c hcm
    · simpa [List.mem_singleton.mp hcn] using hnameg
  have hrelne : m.relPath ≠ [] := by
    rw [hrelv]
    simp
  refine ⟨hdirnull, hrelne, joinPath_no_backslash hgall,
    joinPath_count_slash hrelne hgall, joinPath_last_not_slash hrelne hgall,
    e, he, hdate.symm ▸ ⟨rfl, ?_, hkind⟩⟩
  rw [hrelv, ← hres]

/-- C7 counterexample: the claim is false as stated for hosts whose path
separator is the backslash.  Archiving the demo tree yields a member at
relative components `["b", "c.txt"]`; the code hands `path.relative`
output to the zip library unconverted, so on a backslash host the name is
`"b\c.txt"`, which contains a backslash and no forward slash at all —
the member's relative path does not use forward-slash separators there. -/
theorem c7_member_form_counterexample :
    (zipDir demoInDir demoOut (FsChildren.entriesAt demoInDir demoTree)).members.map
        Member.relPath = [["a.txt"], ["b"], ["b", "c.txt"]] ∧
      joinPath "\\" ["b", "c.txt"] = "b\\c.txt" ∧
      '/' ∉ ("b\\c.txt").data ∧ '\\' ∈ ("b\\c.txt").data := by
  refine ⟨by decide, rfl, by decide, by decide⟩

/-- C7 witness: the nested demo file's member, rendered on a
forward-slash host, is backslash-free and has exactly one separator. -/
theorem c7_member_form_witness :
    '\\' ∉ (joinPath "/" ["b", "c.txt"]).data ∧
      (joinPath "/" ["b", "c.txt"]).data.count '/' = 1 := by
  have h := c7_member_form demoInDir demoOut
    (FsChildren.entriesAt demoInDir demoTree) (by decide)
  have hm := h ⟨["b", "c.txt"], false, some [119, 111], 3⟩ (by decide)
  exact ⟨hm.2.2.1, by simpa using hm.2.2.2.1⟩

end AwsLambdaPlugin
